import Mathlib

/-!
Verification development for `tangermeme/deep_lift_shap.py`.

The Python source is shallowly embedded here:
* tensors over exact rationals (`ℚ`), so "exactly (up to floating-point
  epsilon)" statements become exact equalities;
* rank-2 per-pair tensors (alphabet × length) as `List (List ℚ)`;
* the layer tensors handled by the backward-rule hooks as total functions
  `Nat → Nat → ℚ` (row = batch·channel index, column = feature index), with
  theorems quantified over the in-range indices;
* fallible Python code (`raise`, `torch.stack` on an empty list) as `Except`.
-/

namespace DLS

/-! ## Rank-2 list tensors (alphabet × length) and their elementwise ops -/

/-- A rank-2 tensor of rationals: rows are alphabet channels, columns are
sequence positions. -/
abbrev Qmat := List (List ℚ)

/-- The shape of a rank-2 tensor: the list of row lengths. -/
def shape2 (m : Qmat) : List Nat := m.map List.length

/-- Elementwise subtraction, `a - b` (torch broadcasting is not needed here:
all call sites subtract same-shaped tensors). -/
def ewSub (a b : Qmat) : Qmat := List.zipWith (List.zipWith (· - ·)) a b

/-- Elementwise addition `a + b`. -/
def ewAdd (a b : Qmat) : Qmat := List.zipWith (List.zipWith (· + ·)) a b

/-- Elementwise (Hadamard) product `a * b`. -/
def ewMul (a b : Qmat) : Qmat := List.zipWith (List.zipWith (· * ·)) a b

/-- Multiply every entry by a scalar. -/
def scaleQ (c : ℚ) (m : Qmat) : Qmat := m.map (List.map (fun x => c * x))

/-- `torch.sum(m)` over both axes. -/
def sum2 (m : Qmat) : ℚ := (m.map (fun r => r.sum)).sum

/-- `torch.stack(l).mean(dim=0)`: the elementwise mean of a list of
same-shaped tensors.  (`torch.stack` of an empty list raises; the driver
only reaches this with a nonempty chunk.) -/
def stackMean (l : List Qmat) : Qmat :=
  match l with
  | [] => []
  | x :: xs => scaleQ (1 / (l.length : ℚ)) (xs.foldl ewAdd x)

/-! ## The attribution engine: `DeepLiftShap.attribute` (lines 210-244)

The model is abstracted as
* `f : Qmat → ℚ` — the per-row forward pass already composed with the
  `[:, target]` selection (`y = self.model(X_)[:, target]`, one scalar per
  batch row), and
* `g : List Qmat → List Qmat → List Qmat` — the result of
  `torch.autograd.grad(y.sum(), X)[0]` on the hook-instrumented model, one
  gradient tensor per example row of `X`.

Both are deterministic functions, matching an `eval()`-mode model.  The
`assert X.shape == references.shape` guarantees both batch halves have the
same row count, so `torch.chunk(y, 2)` splits `y` at `X.length`. -/

/-- Result of one `DeepLiftShap.attribute` call: the returned gradients
(multipliers), the per-pair convergence deltas, and whether the
non-terminating `RuntimeWarning` was issued. -/
structure AttrRes where
  gradients : List Qmat
  deltas : List ℚ
  warned : Bool
deriving Repr

/-- `DeepLiftShap.attribute` (lines 210-244), for an abstract deterministic
model `(f, g)`.  `y` is the forward pass on the concatenated batch
`torch.cat([X, references])`; `output_diff = torch.sub(*torch.chunk(y, 2))`;
`input_diff = torch.sum((X - references) * gradients, dim=(1, 2))`;
`convergence_deltas = abs(output_diff - input_diff)`; a warning is issued iff
`torch.any(convergence_deltas > warning_threshold)`; the gradients are
returned in every case. -/
def attributeRun (f : Qmat → ℚ) (g : List Qmat → List Qmat → List Qmat)
    (thr : ℚ) (X refs : List Qmat) : AttrRes :=
  let y := (X ++ refs).map f
  let gradients := g X refs
  let outDiff := List.zipWith (· - ·) (y.take X.length) (y.drop X.length)
  let inDiff := List.zipWith
    (fun x pr => sum2 (ewMul (ewSub x pr.1) pr.2)) X (refs.zip gradients)
  let deltas := List.zipWith (fun o i => |o - i|) outDiff inDiff
  { gradients := gradients
    deltas := deltas
    warned := deltas.any (fun d => thr < d) }

/-! ## A purely linear model (for the convergence law, claim C1)

A purely linear model whose selected target output is
`f(x) = Σ_{a,l} W[a][l] * x[a][l] + b`.  Autodiff of such a model is exact:
the gradient of `y.sum()` with respect to each row of `X` is the weight
tensor `W` itself, and since the model has no nonlinear layers, no backward
hook rewrites it. -/

/-- The linear model's selected target output. -/
def linForward (W : Qmat) (b : ℚ) (x : Qmat) : ℚ := sum2 (ewMul W x) + b

/-- `torch.autograd.grad(y.sum(), X)[0]` for the purely linear model: one
copy of `W` per example row. -/
def linearGrad (W : Qmat) (X _refs : List Qmat) : List Qmat :=
  X.map (fun _ => W)

/-! ## Layer tensors for the backward-rule hooks (`_nonlinear`, `_softmax`,
`_maxpool`, lines 267-349)

A layer's cached activation holds the example and reference halves
concatenated along the batch axis (rows `0..h-1` and `h..2h-1`).  We embed
such tensors as total functions `Nat → Nat → ℚ`; rows/columns beyond the
tensor extent are unconstrained and the theorems quantify over in-range
indices where it matters.  `torch.chunk(t, 2)` along the batch axis becomes
the pair (`t` itself read on rows `< h`, `chunkBot h t`), and
`torch.cat([a, b])` becomes `cat2 h a b`. -/

/-- A batched layer tensor: row = (batch · channel) index, column =
flattened feature index. -/
abbrev Mat := Nat → Nat → ℚ

/-- The bottom half of `torch.chunk(t, 2)` along the batch axis, when each
half has `h` rows. -/
def chunkBot (h : Nat) (M : Mat) : Mat := fun r c => M (r + h) c

/-- `torch.cat([A, B])` along the batch axis, where `A` has `h` rows. -/
def cat2 (h : Nat) (A B : Mat) : Mat := fun r c => if r < h then A r c else B (r - h) c

/-- Pointwise subtraction of layer tensors. -/
def msub (A B : Mat) : Mat := fun r c => A r c - B r c

/-- Pointwise product of layer tensors. -/
def mmul (A B : Mat) : Mat := fun r c => A r c * B r c

/-- Pointwise quotient of layer tensors (exact division in `ℚ`; the rules
only read it where the `|delta_in| < eps` guard has already excluded a zero
denominator whenever `eps > 0`). -/
def mdiv (A B : Mat) : Mat := fun r c => A r c / B r c

/-- `t.sum()` over the whole tensor extent `rows × cols`. -/
def totalSum (rows cols : Nat) (M : Mat) : ℚ :=
  ∑ r in Finset.range rows, ∑ c in Finset.range cols, M r c

/-- `_nonlinear` (lines 267-284): the rescale rule for a generic pointwise
nonlinearity.  `delta_in_ = torch.sub(*module.input.chunk(2))`,
`delta_out_ = torch.sub(*module.output.chunk(2))`, both `cat`-ed to cover
the two batch halves, `delta = delta_out / delta_in`, and the result is
`torch.where(|delta_in| < eps, grad_input[0], grad_output[0] * delta)`. -/
def nonlinearRule (h : Nat) (eps : ℚ) (inp outp gIn gOut : Mat) : Mat :=
  let dIn_ := msub inp (chunkBot h inp)
  let dOut_ := msub outp (chunkBot h outp)
  let dIn := cat2 h dIn_ dIn_
  let dOut := cat2 h dOut_ dOut_
  let delta := mdiv dOut dIn
  fun r c => if |dIn r c| < eps then gIn r c else gOut r c * delta r c

/-- `_softmax` (lines 287-308): identical `delta_in`/`delta_out` correction,
then `new_grad_inp = grad_input_unnorm - grad_input_unnorm.sum() * 1 / n`
with `n = grad_input[0].numel() = 2h * cols`. -/
def softmaxRule (h cols : Nat) (eps : ℚ) (inp outp gIn gOut : Mat) : Mat :=
  let dIn_ := msub inp (chunkBot h inp)
  let dOut_ := msub outp (chunkBot h outp)
  let dIn := cat2 h dIn_ dIn_
  let dOut := cat2 h dOut_ dOut_
  let delta := mdiv dOut dIn
  let unnorm : Mat := fun r c => if |dIn r c| < eps then gIn r c else gOut r c * delta r c
  fun r c => unnorm r c - totalSum (2 * h) cols unnorm * 1 / ((2 * h * cols : Nat) : ℚ)

/-! ### 1D max pooling (for `_maxpool`, lines 311-349)

`F.max_pool1d(input, kernel, stride, 0, 1, False, True)` with the module's
default `padding=0`, `dilation=1`, `ceil_mode=False` (the configuration of
the `MaxPool1d` layers this rule is exercised with): window `p` covers
positions `p*stride .. p*stride+kernel-1`, the pooled value is the window
max, and the returned index is the absolute position of the first maximal
element (ties keep the earliest position, matching the strict-improvement
scan of the CPU kernel).  `F.max_unpool1d(g, indices, ...)` writes `g p`
to position `indices p` of a zero tensor; on (impossible for
`stride = kernel`) index collisions the later window wins, matching a
sequential overwrite. -/

/-- Pooled value of window `p` of a row. -/
def poolOut (kernel stride : Nat) (row : Nat → ℚ) (p : Nat) : ℚ :=
  (List.range kernel).foldl (fun acc w => max acc (row (p * stride + w)))
    (row (p * stride))

/-- Absolute argmax index of window `p` of a row (first maximal element). -/
def poolIdx (kernel stride : Nat) (row : Nat → ℚ) (p : Nat) : Nat :=
  p * stride +
    (List.range kernel).foldl
      (fun best w => if row (p * stride + best) < row (p * stride + w) then w else best) 0

/-- `F.max_unpool1d` on one row: position `t` receives the value of the last
window whose argmax index is `t`, else `0`. -/
def unpoolRow (P : Nat) (idxRow : Nat → Nat) (gRow : Nat → ℚ) (t : Nat) : ℚ :=
  (List.range P).foldl (fun acc p => if idxRow p = t then gRow p else acc) 0

/-- `F.max_unpool1d` on a batched tensor with `P` pooled windows per row. -/
def unpoolMat (P : Nat) (idx : Nat → Nat → Nat) (G : Mat) : Mat :=
  fun r t => unpoolRow P (idx r) (G r) t

/-- `_maxpool` (lines 311-349) for a `MaxPool1d` layer with `P` pooled
windows per row: `delta_in` as in the generic rule;
`output, output_ref = module.output.chunk(2)`;
`delta_out_xmax = torch.max(output, output_ref)`;
`delta_out = torch.cat([delta_out_xmax - output_ref, output - delta_out_xmax])`;
`indices` recomputed by pooling the cached raw `module.input`;
`unpool_ = F.max_unpool1d(grad_output[0] * delta_out, indices, ...)`;
its two halves are summed, `cat`-ed back over both halves, and the result is
`torch.where(|delta_in| < eps, grad_input[0], unpool_delta / delta_in)`. -/
def maxpoolRule (h P kernel stride : Nat) (eps : ℚ) (inp outp gIn gOut : Mat) : Mat :=
  let dIn_ := msub inp (chunkBot h inp)
  let dIn := cat2 h dIn_ dIn_
  let outRef := chunkBot h outp
  let xmax : Mat := fun r c => max (outp r c) (outRef r c)
  let dOut := cat2 h (msub xmax outRef) (msub outp xmax)
  let indices : Nat → Nat → Nat := fun r => poolIdx kernel stride (inp r)
  let unp := unpoolMat P indices (mmul gOut dOut)
  let unpSum : Mat := fun r c => unp r c + unp (r + h) c
  let unpC := cat2 h unpSum unpSum
  fun r c => if |dIn r c| < eps then gIn r c else unpC r c / dIn r c

/-- The toy max-pool check: cached raw input `[1, 5, 2, 8]` for the example
half and an all-zero reference half (`h = 1`), kernel 2, stride 2, so the
cached forward output is the pooled `[5, 8]` over `[0, 0]`. -/
def toyInput : Mat := fun r c =>
  if r = 0 then [(1 : ℚ), 5, 2, 8].getD c 0 else 0

/-- The cached `module.output` of the toy layer: `max_pool1d(toyInput, 2, 2)`. -/
def toyOutput : Mat := fun r c => poolOut 2 2 (toyInput r) c

/-- The reconstructed gradient of the `_maxpool` rule on the toy layer, with
incoming output gradient identically `1` and incoming input gradient `0`. -/
def toyMaxpoolGrad : Mat :=
  maxpoolRule 1 2 2 2 (1 / 1000000) toyInput toyOutput (fun _ _ => 0) (fun _ _ => 1)

/-! ## `hypothetical_attributions` (lines 55-79)

The function takes three Python values that are supposed to be one-element
tuples of rank-3 tensors of identical shape `(n_baselines, alphabet,
length)`.  We embed the Python values it can receive: a tuple of tensors or
non-tensors, or a non-tuple. -/

/-- A Python value as seen by `hypothetical_attributions`: a rank-3 float
tensor with its shape, or anything that is not a tensor. -/
inductive PyVal where
  | tensor (n A L : Nat) (data : Nat → Nat → Nat → ℚ)
  | other

/-- A Python argument: a tuple of values, or something that is not a
tuple. -/
inductive PyArg where
  | tup (elems : List PyVal)
  | nontup

/-- The shape triple of the first element of a one-element tensor tuple. -/
def PyArg.shapeOf : PyArg → Option (Nat × Nat × Nat)
  | .tup [.tensor n A L _] => some (n, A, L)
  | _ => none

/-- `hypothetical_input = torch.zeros_like(X[0]); hypothetical_input[:, i] = 1.0`:
the input that is a fixed symbol-`i` one-hot at every position. -/
def hypInputChan (i : Nat) : Nat → Nat → Nat → ℚ := fun _ a _ =>
  if a = i then 1 else 0

/-- The loop body of lines 70-77: `projected_contribs` starts as
`torch.zeros_like(references[0])` and channel `i < A` is assigned
`torch.sum((hypothetical_input - references[0]) * multipliers[0], dim=1)`. -/
def projectedOf (A : Nat) (md rd : Nat → Nat → Nat → ℚ) :
    Nat → Nat → Nat → ℚ := fun n i p =>
  if i < A then ∑ a in Finset.range A, (hypInputChan i n a p - rd n a p) * md n a p
  else 0

/-- `hypothetical_attributions(multipliers, X, references)` (lines 55-79):
the validation loop checks in order that each argument is a one-element
tuple, that its element is a tensor, and that its shape matches
`multipliers[0].shape`, raising `ValueError` otherwise; on success it
returns the projected contributions (a one-element tuple, embedded as the
shape paired with the rank-3 data). -/
def hypAttr (m X r : PyArg) : Except Unit ((Nat × Nat × Nat) × (Nat → Nat → Nat → ℚ)) :=
  match m with
  | .tup [.tensor n A L md] =>
    match X with
    | .tup [.tensor n₂ A₂ L₂ _] =>
      if (n₂, A₂, L₂) = (n, A, L) then
        match r with
        | .tup [.tensor n₃ A₃ L₃ rd] =>
          if (n₃, A₃, L₃) = (n, A, L) then .ok ((n, A, L), projectedOf A md rd)
          else .error ()
        | _ => .error ()
      else .error ()
    | _ => .error ()
  | _ => .error ()

/-- The valid-argument predicate of the claim: every argument is a
one-element tuple of a tensor whose shape matches the multipliers'. -/
def validArgs (m X r : PyArg) : Bool :=
  match m.shapeOf with
  | some s =>
    match X.shapeOf, r.shapeOf with
    | some sX, some sr => decide (sX = s) && decide (sr = s)
    | _, _ => false
  | none => false

/-! ## The batched multi-reference driver `deep_lift_shap` (lines 495-576)

The driver enumerates the `n = N * R` example-reference pairs in row-major
order (`Xi.append(i // n_shuffles)`, `rj.append(i % n_shuffles)`), flushes a
compute batch whenever `len(Xi) == batch_size or i == n - 1`, and drains the
pending list `attr_` in chunks of `R = n_shuffles` as soon as enough pair
results have arrived.

Abstractions used by this embedding:
* the engine call `DeepLiftShap(model, ...).attribute(_X, _references, ...)`
  is a deterministic per-pair function `engine : Qmat → Qmat → Qmat`
  (the vectorized forward/backward computes each row's output and gradient
  from that row's example-reference pair alone, and a fresh `DeepLiftShap`
  object is built per batch), so a flushed batch contributes
  `(Xi.zip rj).map (fun p => pairOutput ... p.1 p.2)` to `attr_`;
* references are resolved per pair exactly as in the source: a precomputed
  tensor is indexed as `references[Xi, rj]`, and a generator with a fixed
  integer seed is called one sequence at a time with
  `random_state = random_state + rj[j]`, so in both modes the reference for
  pair `(i, j)` depends only on `(i, j)`;
* `torch.stack` of the final (possibly empty) attribution list is
  `torchStack`, which raises on an empty list. -/

/-- One element of the final `attributions` list: a processed per-example
attribution tensor, or (with `raw_outputs=True`) the stacked per-reference
multipliers of one example. -/
inductive AttrOut where
  | single (t : Qmat)
  | stacked (l : List Qmat)
deriving DecidableEq

/-- The `references` argument: a precomputed tensor indexed as
`references[Xi, rj]`, or a deterministic generator function called with
`random_state + rj[j]` (the deterministic-seed mode of lines 520-525). -/
inductive RefSource where
  | tensor (refs : Nat → Nat → Qmat)
  | gen (g : Qmat → Nat → Qmat) (seed : Nat)

/-- The reference used for pair `(i, j)` (lines 517-525). -/
def resolveRef (X : Nat → Qmat) : RefSource → Nat → Nat → Qmat
  | .tensor refs, i, j => refs i j
  | .gen g seed, i, j => g (X i) (seed + j)

/-- The per-pair rank-2 core of `hypothetical_attributions` as the driver
applies it to each example-reference slice of a batch (`raw_outputs=False`
path, lines 539-541); the shape bookkeeping of the full function is
verified separately on `hypAttr`. -/
def hypProject (mult Xin ref : Qmat) : Qmat :=
  (List.range ref.length).map fun s =>
    (List.range ((ref.getD s []).length)).map fun p =>
      ∑ a in Finset.range Xin.length,
        ((if a = s then (1 : ℚ) else 0) - (ref.getD a []).getD p 0)
          * ((mult.getD a []).getD p 0)

/-- The tensor appended to `attr_` for pair `(i, j)`: the engine's
multiplier, passed through `hypothetical_attributions` unless
`raw_outputs`. -/
def pairOutput (engine : Qmat → Qmat → Qmat) (X : Nat → Qmat)
    (rs : RefSource) (raw : Bool) (i j : Nat) : Qmat :=
  let ref := resolveRef X rs i j
  let m := engine (X i) ref
  if raw then m else hypProject m (X i) ref

/-- Finalizing one example (lines 552-562): `torch.stack(attr_[:R])`, then
unless `raw_outputs` the mean over references, multiplied by `X[z]` unless
`hypothetical`. -/
def finalizeChunk (X : Nat → Qmat) (raw hyp : Bool) (z : Nat)
    (chunk : List Qmat) : AttrOut :=
  if raw then .stacked chunk
  else if hyp then .single (stackMean chunk)
  else .single (ewMul (stackMean chunk) (X z))

/-- The drain loop `while len(attr_) >= n_shuffles: ...` (lines 552-562),
with explicit fuel; one iteration finalizes the `R` oldest pending tensors
and advances `z`.  `drainC` supplies fuel `attr.length`, which suffices
whenever `R ≥ 1`. -/
def drainF (R : Nat) (fin : Nat → List Qmat → AttrOut) :
    Nat → List Qmat → List AttrOut → Nat → List AttrOut × List Qmat × Nat
  | 0, attr, out, z => (out, attr, z)
  | fuel + 1, attr, out, z =>
    if R ≤ attr.length then
      drainF R fin fuel (attr.drop R) (out ++ [fin z (attr.take R)]) (z + 1)
    else (out, attr, z)

/-- The drain loop with the canonical fuel. -/
def drainC (R : Nat) (fin : Nat → List Qmat → AttrOut) (attr : List Qmat)
    (out : List AttrOut) (z : Nat) : List AttrOut × List Qmat × Nat :=
  drainF R fin attr.length attr out z

/-- The pair loop `for i in trange(n)` (lines 505-567) over the remaining
pair indices `l`, carrying the batch buffers `Xi`/`rj`, the pending list
`attr_`, the finalized `attributions`, and the next example index `z`. -/
def loopGo (pf : Nat → Nat → Qmat) (fin : Nat → List Qmat → AttrOut)
    (R bs n : Nat) :
    List Nat → List Nat → List Nat → List Qmat → List AttrOut → Nat →
      List AttrOut
  | [], _, _, _, out, _ => out
  | i :: rest, Xi, rj, attr, out, z =>
    let Xi' := Xi ++ [i / R]
    let rj' := rj ++ [i % R]
    if Xi'.length = bs ∨ i = n - 1 then
      let ms := (Xi'.zip rj').map fun p => pf p.1 p.2
      let res := drainC R fin (attr ++ ms) out z
      loopGo pf fin R bs n rest [] [] res.2.1 res.1 res.2.2
    else loopGo pf fin R bs n rest Xi' rj' attr out z

/-- The full pair loop of `deep_lift_shap` over `n = N * R` pairs. -/
def dlsLoop (pf : Nat → Nat → Qmat) (fin : Nat → List Qmat → AttrOut)
    (R bs n : Nat) : List AttrOut :=
  loopGo pf fin R bs n (List.range n) [] [] [] [] 0

/-- `torch.stack` on a list of same-shaped tensors: raises on an empty
list, otherwise stacks (embedded as the list itself). -/
def torchStack {α : Type} (l : List α) : Except String (List α) :=
  if l.isEmpty then .error "stack expects a non-empty TensorList" else .ok l

/-- `deep_lift_shap(model, X, ...)` for `N` examples, `R` references per
example (`n_shuffles`, overridden by `references.shape[1]` when a tensor is
supplied), and compute batch size `bs`: run the pair loop and stack the
finalized attributions. -/
def deep_lift_shap (engine : Qmat → Qmat → Qmat) (X : Nat → Qmat)
    (rs : RefSource) (N R bs : Nat) (raw hyp : Bool) :
    Except String (List AttrOut) :=
  torchStack (dlsLoop (pairOutput engine X rs raw) (finalizeChunk X raw hyp)
    R bs (N * R))

/-- The spec-side rescaling of claim C7: multiply a processed per-example
attribution elementwise by the example's one-hot tensor (`attr_chunk *=
X[z]`). -/
def scaleByX (Xz : Qmat) : AttrOut → AttrOut
  | .single t => .single (ewMul t Xz)
  | .stacked l => .stacked l

/-! ## The hook lifecycle of `DeepLiftShap.attribute` (claim C9)

`_register_hooks` (lines 256-264) is applied to every module of the model;
it skips modules that already carry backward hooks and modules whose type is
not in `_NON_LINEAR_OPS`, and otherwise installs a forward hook, a
forward-pre hook, and a full-backward hook, collecting the removable
handles in `self.handles`.  The `try/finally` of `attribute` (lines
212-244) removes every collected handle regardless of whether the
forward/backward pass raised.  Modules are embedded as their hook-id lists
plus a supported-kind flag; `nid` is the globally fresh `RemovableHandle`
id counter, so every id already installed on the model is below it. -/

inductive HookKind where
  | fwdHook
  | preHook
  | bwdHook
deriving DecidableEq

structure LayerMod where
  supported : Bool
  fwdIds : List Nat
  preIds : List Nat
  bwdIds : List Nat
deriving DecidableEq

def addHookId : HookKind → Nat → LayerMod → LayerMod
  | .fwdHook, i, m => { m with fwdIds := m.fwdIds ++ [i] }
  | .preHook, i, m => { m with preIds := m.preIds ++ [i] }
  | .bwdHook, i, m => { m with bwdIds := m.bwdIds ++ [i] }

def removeHookId : HookKind → Nat → LayerMod → LayerMod
  | .fwdHook, i, m => { m with fwdIds := m.fwdIds.erase i }
  | .preHook, i, m => { m with preIds := m.preIds.erase i }
  | .bwdHook, i, m => { m with bwdIds := m.bwdIds.erase i }

abbrev Handle := Nat × HookKind × Nat

def regLayer (m : LayerMod) (idx nid : Nat) : LayerMod × List Handle × Nat :=
  if m.bwdIds.length > 0 then (m, [], nid)
  else if ¬ m.supported then (m, [], nid)
  else (addHookId .bwdHook (nid + 2) (addHookId .preHook (nid + 1)
          (addHookId .fwdHook nid m)),
        [(idx, .fwdHook, nid), (idx, .preHook, nid + 1),
          (idx, .bwdHook, nid + 2)],
        nid + 3)

def regAll : List LayerMod → Nat → Nat → List LayerMod × List Handle × Nat
  | [], _, nid => ([], [], nid)
  | m :: rest, idx, nid =>
    let r1 := regLayer m idx nid
    let r2 := regAll rest (idx + 1) r1.2.2
    (r1.1 :: r2.1, r1.2.1 ++ r2.2.1, r2.2.2)

def modList : List LayerMod → Nat → (LayerMod → LayerMod) → List LayerMod
  | [], _, _ => []
  | m :: r, 0, f => f m :: r
  | m :: r, n + 1, f => m :: modList r n f

def remHandle (ms : List LayerMod) (h : Handle) : List LayerMod :=
  modList ms h.1 (removeHookId h.2.1 h.2.2)

def idsBelow (n : Nat) (m : LayerMod) : Bool :=
  (m.fwdIds ++ m.preIds ++ m.bwdIds).all (· < n)

def attributeHooks (ms : List LayerMod) (nid : Nat)
    (outcome : Except String (List Qmat)) :
    Except String (List Qmat) × List LayerMod :=
  let r := regAll ms 0 nid
  (outcome, r.2.1.foldl remHandle r.1)

/-! ## Shared helper lemmas -/

theorem zipWith_mul_sub_sum (w : List ℚ) : ∀ a b : List ℚ,
    a.length = w.length → b.length = w.length →
    (List.zipWith (· * ·) (List.zipWith (· - ·) a b) w).sum
      = (List.zipWith (· * ·) a w).sum - (List.zipWith (· * ·) b w).sum := by
  induction w with
  | nil =>
    intro a b ha hb
    simp at ha hb
    simp [ha, hb]
  | cons c w ih =>
    intro a b ha hb
    cases a with
    | nil => simp at ha
    | cons x a =>
      cases b with
      | nil => simp at hb
      | cons y b =>
        simp only [List.length_cons, Nat.succ.injEq] at ha hb
        simp only [List.zipWith_cons_cons, List.sum_cons, ih a b ha hb]
        ring

theorem shape2_cons {x : List ℚ} {a : Qmat} {c : List ℚ} {w : Qmat}
    (h : shape2 (x :: a) = shape2 (c :: w)) :
    x.length = c.length ∧ shape2 a = shape2 w := by
  simpa [shape2] using h

theorem sum2_ewMul_sub (w : Qmat) : ∀ a b : Qmat,
    shape2 a = shape2 w → shape2 b = shape2 w →
    sum2 (ewMul (ewSub a b) w) = sum2 (ewMul a w) - sum2 (ewMul b w) := by
  induction w with
  | nil =>
    intro a b ha hb
    have ha' : a = [] := by simpa [shape2] using ha
    have hb' : b = [] := by simpa [shape2] using hb
    simp [ha', hb', sum2, ewMul, ewSub]
  | cons c w ih =>
    intro a b ha hb
    cases a with
    | nil => simp [shape2] at ha
    | cons x a =>
      cases b with
      | nil => simp [shape2] at hb
      | cons y b =>
        obtain ⟨hx, ha'⟩ := shape2_cons ha
        obtain ⟨hy, hb'⟩ := shape2_cons hb
        simp only [ewMul, ewSub, List.zipWith_cons_cons, sum2, List.map_cons,
          List.sum_cons] at *
        rw [zipWith_mul_sub_sum c x y hx hy]
        have := ih a b ha' hb'
        simp only [ewMul, ewSub, sum2] at this
        rw [this]
        ring

theorem ewMul_comm (a b : Qmat) : ewMul a b = ewMul b a := by
  unfold ewMul
  apply List.zipWith_comm_of_comm
  intro x y
  apply List.zipWith_comm_of_comm
  intro u v
  exact mul_comm u v

/-- The per-pair convergence delta computed by `attribute`, extracted at
index `k` of the batch. -/
theorem attributeRun_deltas_getElem (f : Qmat → ℚ)
    (g : List Qmat → List Qmat → List Qmat) (thr : ℚ) (X refs : List Qmat)
    (k : Nat) (x r gr : Qmat) (hx : X[k]? = some x) (hr : refs[k]? = some r)
    (hg : (g X refs)[k]? = some gr) :
    (attributeRun f g thr X refs).deltas[k]? =
      some |(f x - f r) - sum2 (ewMul (ewSub x r) gr)| := by
  unfold attributeRun
  simp only
  have hy : (X ++ refs).map f = X.map f ++ refs.map f := by
    simp [List.map_append]
  have htake : ((X ++ refs).map f).take X.length = X.map f := by
    rw [hy, ← List.length_map X f]
    exact List.take_left (X.map f) (refs.map f)
  have hdrop : ((X ++ refs).map f).drop X.length = refs.map f := by
    rw [hy, ← List.length_map X f]
    exact List.drop_left (X.map f) (refs.map f)
  rw [htake, hdrop]
  simp [List.getElem?_zipWith, List.zip_eq_zipWith, List.getElem?_map, hx, hr, hg]

/-! ## Claim C1: the convergence law for a purely linear model -/

/-- **C1.** For every purely linear model (weights `W`, bias `b`), every
example `x` and reference `r` of the same shape in the batch, the multiplier
returned by `DeepLiftShap.attribute` for that pair is `W`, and the sum over
the alphabet and length axes of `(x - r) * multiplier` equals
`f(x) - f(r)` exactly; consequently the convergence delta of the pair is
exactly `0`. -/
theorem C1_linear_convergence (W : Qmat) (b thr : ℚ) (X refs : List Qmat)
    (k : Nat) (x r : Qmat) (hx : X[k]? = some x) (hr : refs[k]? = some r)
    (hsx : shape2 x = shape2 W) (hsr : shape2 r = shape2 W) :
    (attributeRun (linForward W b) (linearGrad W) thr X refs).gradients[k]?
        = some W
    ∧ sum2 (ewMul (ewSub x r) W) = linForward W b x - linForward W b r
    ∧ (attributeRun (linForward W b) (linearGrad W) thr X refs).deltas[k]?
        = some 0 := by
  have hg : (linearGrad W X refs)[k]? = some W := by
    unfold linearGrad
    rw [List.getElem?_map, hx]
    rfl
  have hconv : sum2 (ewMul (ewSub x r) W) = linForward W b x - linForward W b r := by
    rw [sum2_ewMul_sub W x r hsx hsr, ewMul_comm x W, ewMul_comm r W]
    unfold linForward
    ring
  refine ⟨?_, hconv, ?_⟩
  · exact hg
  · rw [attributeRun_deltas_getElem (linForward W b) (linearGrad W) thr X refs
      k x r W hx hr hg]
    rw [hconv]
    simp

/-- Witness for C1 at a concrete input: `W = [[1, -1, 0, 0]]`, `b = 2`,
one-hot example `x = [[1, 0, 0, 0]]`, reference `r = [[0, 1, 0, 0]]`. -/
theorem C1_witness :
    (attributeRun (linForward [[(1 : ℚ), -1, 0, 0]] 2)
        (linearGrad [[(1 : ℚ), -1, 0, 0]]) (1 / 1000)
        [[[(1 : ℚ), 0, 0, 0]]] [[[(0 : ℚ), 1, 0, 0]]]).gradients[0]?
      = some [[(1 : ℚ), -1, 0, 0]]
    ∧ sum2 (ewMul (ewSub [[(1 : ℚ), 0, 0, 0]] [[(0 : ℚ), 1, 0, 0]])
        [[(1 : ℚ), -1, 0, 0]])
      = linForward [[(1 : ℚ), -1, 0, 0]] 2 [[(1 : ℚ), 0, 0, 0]]
        - linForward [[(1 : ℚ), -1, 0, 0]] 2 [[(0 : ℚ), 1, 0, 0]]
    ∧ (attributeRun (linForward [[(1 : ℚ), -1, 0, 0]] 2)
        (linearGrad [[(1 : ℚ), -1, 0, 0]]) (1 / 1000)
        [[[(1 : ℚ), 0, 0, 0]]] [[[(0 : ℚ), 1, 0, 0]]]).deltas[0]?
      = some 0 :=
  C1_linear_convergence [[(1 : ℚ), -1, 0, 0]] 2 (1 / 1000)
    [[[(1 : ℚ), 0, 0, 0]]] [[[(0 : ℚ), 1, 0, 0]]] 0
    [[(1 : ℚ), 0, 0, 0]] [[(0 : ℚ), 1, 0, 0]]
    (by decide) (by decide) (by decide) (by decide)

/-! ## Claim C8: convergence deltas are advisory -/

/-- **C8.** Every call to `DeepLiftShap.attribute` computes a per-pair
convergence delta `|(f(X) - f(reference)) - Σ (X - reference) * gradient|`;
the non-fatal `RuntimeWarning` is issued iff some delta strictly exceeds the
warning threshold; and the gradients tensor is returned in all cases
(the result record always carries `g X refs`, warned or not). -/
theorem C8_warning_advisory (f : Qmat → ℚ)
    (g : List Qmat → List Qmat → List Qmat) (thr : ℚ) (X refs : List Qmat) :
    (attributeRun f g thr X refs).gradients = g X refs
    ∧ ((attributeRun f g thr X refs).warned = true ↔
        ∃ d ∈ (attributeRun f g thr X refs).deltas, thr < d)
    ∧ ∀ (k : Nat) (x r gr : Qmat), X[k]? = some x → refs[k]? = some r →
        (g X refs)[k]? = some gr →
        (attributeRun f g thr X refs).deltas[k]? =
          some |(f x - f r) - sum2 (ewMul (ewSub x r) gr)| := by
  refine ⟨rfl, ?_, ?_⟩
  · simp [attributeRun, List.any_eq_true]
  · intro k x r gr hx hr hg
    exact attributeRun_deltas_getElem f g thr X refs k x r gr hx hr hg

/-- Witness for C8 at a concrete input: a model whose forward is the first
entry of the tensor and whose "gradient" is the constant `[[2]]`, and a pair
whose delta `|(5 - 1) - 2*4| = 4` exceeds the threshold `1`, so the warning
fires but the gradients are still returned. -/
theorem C8_witness :
    (attributeRun (fun m => (m.headD []).headD 0) (fun _ _ => [[[(2 : ℚ)]]])
        1 [[[(5 : ℚ)]]] [[[(1 : ℚ)]]]).gradients = [[[(2 : ℚ)]]]
    ∧ ((attributeRun (fun m => (m.headD []).headD 0) (fun _ _ => [[[(2 : ℚ)]]])
        1 [[[(5 : ℚ)]]] [[[(1 : ℚ)]]]).warned = true ↔
        ∃ d ∈ (attributeRun (fun m => (m.headD []).headD 0)
          (fun _ _ => [[[(2 : ℚ)]]]) 1 [[[(5 : ℚ)]]] [[[(1 : ℚ)]]]).deltas,
          (1 : ℚ) < d)
    ∧ (attributeRun (fun m => (m.headD []).headD 0) (fun _ _ => [[[(2 : ℚ)]]])
        1 [[[(5 : ℚ)]]] [[[(1 : ℚ)]]]).deltas[0]? =
        some |(((([[(5 : ℚ)]] : Qmat).headD []).headD 0)
            - ((([[(1 : ℚ)]] : Qmat).headD []).headD 0))
          - sum2 (ewMul (ewSub [[(5 : ℚ)]] [[(1 : ℚ)]]) [[(2 : ℚ)]])| :=
  ⟨(C8_warning_advisory (fun m => (m.headD []).headD 0)
      (fun _ _ => [[[(2 : ℚ)]]]) 1 [[[(5 : ℚ)]]] [[[(1 : ℚ)]]]).1,
   (C8_warning_advisory (fun m => (m.headD []).headD 0)
      (fun _ _ => [[[(2 : ℚ)]]]) 1 [[[(5 : ℚ)]]] [[[(1 : ℚ)]]]).2.1,
   (C8_warning_advisory (fun m => (m.headD []).headD 0)
      (fun _ _ => [[[(2 : ℚ)]]]) 1 [[[(5 : ℚ)]]] [[[(1 : ℚ)]]]).2.2
     0 [[(5 : ℚ)]] [[(1 : ℚ)]] [[(2 : ℚ)]] (by decide) (by decide) (by decide)⟩

/-! ## Claim C3: the generic nonlinearity rule -/

/-- **C3.** For every intercepted generic nonlinearity, cached input/output
pair (two batch halves: example rows `rr < h` and reference rows `rr + h`),
and incoming gradients, `_nonlinear` returns the tensor that, at positions
where `|input_example - input_reference| < eps`, is the unmodified incoming
`grad_input`, and elsewhere is the incoming `grad_output` times
`(output_example - output_reference) / (input_example - input_reference)`,
the half-differences being broadcast identically to both batch halves. -/
theorem C3_nonlinear_rule (h : Nat) (eps : ℚ) (inp outp gIn gOut : Mat)
    (r c : Nat) :
    nonlinearRule h eps inp outp gIn gOut r c =
      (let rr := if r < h then r else r - h
       let din := inp rr c - inp (rr + h) c
       let dout := outp rr c - outp (rr + h) c
       if |din| < eps then gIn r c else gOut r c * (dout / din)) := by
  by_cases hrh : r < h <;>
    simp only [nonlinearRule, msub, chunkBot, cat2, mdiv, hrh, if_true, if_false,
      reduceIte]

/-! ## Claim C5: the softmax rule -/

/-- **C5.** For every intercepted softmax-like layer, `_softmax` first
applies the identical `delta_in`/`delta_out` correction as the generic
nonlinearity rule and then re-centers it by subtracting its sum over all
`n = 2h * cols` elements divided by `n`; consequently the returned corrected
gradient tensor sums to zero over the whole tensor extent. -/
theorem C5_softmax_rule (h cols : Nat) (eps : ℚ) (inp outp gIn gOut : Mat) :
    (∀ r c, softmaxRule h cols eps inp outp gIn gOut r c =
        nonlinearRule h eps inp outp gIn gOut r c
          - totalSum (2 * h) cols (nonlinearRule h eps inp outp gIn gOut)
              / ((2 * h * cols : Nat) : ℚ))
    ∧ totalSum (2 * h) cols (softmaxRule h cols eps inp outp gIn gOut) = 0 := by
  have hpt : ∀ r c, softmaxRule h cols eps inp outp gIn gOut r c =
      nonlinearRule h eps inp outp gIn gOut r c
        - totalSum (2 * h) cols (nonlinearRule h eps inp outp gIn gOut)
            / ((2 * h * cols : Nat) : ℚ) := by
    intro r c
    simp only [softmaxRule, nonlinearRule, msub, chunkBot, cat2, mdiv]
    ring
  refine ⟨hpt, ?_⟩
  set u := nonlinearRule h eps inp outp gIn gOut with hu
  set S := totalSum (2 * h) cols u with hS
  have hexp : totalSum (2 * h) cols (softmaxRule h cols eps inp outp gIn gOut)
      = S - ((2 * h) * cols : Nat) * (S / ((2 * h * cols : Nat) : ℚ)) := by
    unfold totalSum
    rw [Finset.sum_congr rfl (fun r _ => Finset.sum_congr rfl (fun c _ => hpt r c))]
    simp only [Finset.sum_sub_distrib, Finset.sum_const, Finset.card_range,
      nsmul_eq_mul]
    rw [hS]
    unfold totalSum
    push_cast
    ring
  rw [hexp]
  by_cases hn : ((2 * h * cols : Nat) : ℚ) = 0
  · have hz : (2 * h) * cols = 0 := by exact_mod_cast hn
    have hS0 : S = 0 := by
      rcases Nat.mul_eq_zero.mp hz with h1 | h2
      · rw [hS]
        unfold totalSum
        rw [h1]
        simp
      · rw [hS]
        unfold totalSum
        rw [h2]
        simp
    rw [hS0, hn]
    simp
  · rw [mul_div_cancel₀ S hn]
    ring

/-! ## Claim C4: the max-pooling rule -/

/-- **C4.** For every intercepted max-pooling layer, `_maxpool` computes
`delta_out` as two asymmetric pieces — `max(out_ex, out_ref) - out_ref` on
the example half and `out_ex - max(out_ex, out_ref)` on the reference half —
and scatters the downstream gradient weighted by these pieces back to the
argmax indices recomputed by re-pooling the cached raw input, summing the
two scattered halves and dividing by `delta_in` away from the
`|delta_in| < eps` region; and on the toy layer with example input
`[1, 5, 2, 8]`, kernel 2, stride 2 (pooled `[5, 8]`), the reconstructed
gradient is nonzero exactly at input positions 1 and 3. -/
theorem C4_maxpool_rule :
    (∀ (h P kernel stride : Nat) (eps : ℚ) (inp outp gIn gOut : Mat)
      (r c : Nat), r < 2 * h →
      maxpoolRule h P kernel stride eps inp outp gIn gOut r c =
        (let rr := if r < h then r else r - h
         let din := inp rr c - inp (rr + h) c
         let exPiece : Nat → ℚ := fun p =>
           gOut rr p * (max (outp rr p) (outp (rr + h) p) - outp (rr + h) p)
         let refPiece : Nat → ℚ := fun p =>
           gOut (rr + h) p * (outp rr p - max (outp rr p) (outp (rr + h) p))
         if |din| < eps then gIn r c
         else (unpoolRow P (poolIdx kernel stride (inp rr)) exPiece c
             + unpoolRow P (poolIdx kernel stride (inp (rr + h))) refPiece c) / din))
    ∧ (∀ t, t < 4 → (toyMaxpoolGrad 0 t ≠ 0 ↔ t = 1 ∨ t = 3)) := by
  constructor
  · intro h P kernel stride eps inp outp gIn gOut r c hr
    have hnl : ∀ x : Nat, ¬ (x + h < h) := fun x => by omega
    have hsub : ∀ x : Nat, x + h - h = x := fun x => by omega
    by_cases hrh : r < h
    · simp only [maxpoolRule, unpoolMat, unpoolRow, mmul, msub, cat2, chunkBot,
        hrh, if_true, hnl, if_false, hsub, reduceIte]
    · have hrr : r - h < h := by omega
      have hh : ¬ (r - h + h < h) := by omega
      simp only [maxpoolRule, unpoolMat, unpoolRow, mmul, msub, cat2, chunkBot,
        hrh, hrr, hh, hnl, hsub, if_true, if_false, reduceIte]
  · have hi0 : toyInput 0 0 = 1 := rfl
    have hi1 : toyInput 0 1 = 5 := rfl
    have hi2 : toyInput 0 2 = 2 := rfl
    have hi3 : toyInput 0 3 = 8 := rfl
    have hiz : ∀ c, toyInput 1 c = 0 := fun _ => rfl
    have ho0 : toyOutput 0 0 = 5 := by
      norm_num [toyOutput, poolOut, toyInput, List.range_succ]
    have ho1 : toyOutput 0 1 = 8 := by
      norm_num [toyOutput, poolOut, toyInput, List.range_succ]
    have hoz0 : toyOutput 1 0 = 0 := by
      norm_num [toyOutput, poolOut, toyInput, List.range_succ]
    have hoz1 : toyOutput 1 1 = 0 := by
      norm_num [toyOutput, poolOut, toyInput, List.range_succ]
    have hx0 : poolIdx 2 2 (toyInput 0) 0 = 1 := by
      norm_num [poolIdx, toyInput, List.range_succ]
    have hx1 : poolIdx 2 2 (toyInput 0) 1 = 3 := by
      norm_num [poolIdx, toyInput, List.range_succ]
    have hy0 : poolIdx 2 2 (toyInput 1) 0 = 0 := by
      norm_num [poolIdx, toyInput, List.range_succ]
    have hy1 : poolIdx 2 2 (toyInput 1) 1 = 2 := by
      norm_num [poolIdx, toyInput, List.range_succ]
    have hv : toyMaxpoolGrad 0 0 = 0 ∧ toyMaxpoolGrad 0 1 = 1
        ∧ toyMaxpoolGrad 0 2 = 0 ∧ toyMaxpoolGrad 0 3 = 1 := by
      refine ⟨?_, ?_, ?_, ?_⟩ <;>
        simp only [toyMaxpoolGrad, maxpoolRule, unpoolMat, unpoolRow, mmul, msub,
          cat2, chunkBot, List.range_succ, List.range_zero, List.nil_append,
          List.foldl_cons, List.foldl_nil, List.foldl_append] <;>
        norm_num [hi0, hi1, hi2, hi3, hiz, ho0, ho1, hoz0, hoz1, hx0, hx1,
          hy0, hy1]
    obtain ⟨h0, h1, h2, h3⟩ := hv
    intro t ht
    interval_cases t <;> simp [h0, h1, h2, h3]

/-- Witness for C4's general characterization, at the toy layer, row 0,
column 1 (where the guard hypothesis `0 < 2 * 1` holds). -/
theorem C4_witness :
    maxpoolRule 1 2 2 2 (1 / 100) toyInput toyOutput (fun _ _ => 0)
        (fun _ _ => 1) 0 1 =
      (let rr := if 0 < 1 then 0 else 0 - 1
       let din := toyInput rr 1 - toyInput (rr + 1) 1
       let exPiece : Nat → ℚ := fun p =>
         (fun _ _ => (1 : ℚ)) rr p *
           (max (toyOutput rr p) (toyOutput (rr + 1) p) - toyOutput (rr + 1) p)
       let refPiece : Nat → ℚ := fun p =>
         (fun _ _ => (1 : ℚ)) (rr + 1) p *
           (toyOutput rr p - max (toyOutput rr p) (toyOutput (rr + 1) p))
       if |din| < 1 / 100 then (fun _ _ => (0 : ℚ)) 0 1
       else (unpoolRow 2 (poolIdx 2 2 (toyInput rr)) exPiece 1
           + unpoolRow 2 (poolIdx 2 2 (toyInput (rr + 1))) refPiece 1) / din) :=
  C4_maxpool_rule.1 1 2 2 2 (1 / 100) toyInput toyOutput (fun _ _ => 0)
    (fun _ _ => 1) 0 1 (by decide)

/-! ## Claim C6: `hypothetical_attributions` -/

/-- **C6.** On every identically shaped one-element tensor-tuple arguments,
`hypothetical_attributions` returns a same-shaped tensor whose value at
symbol `s < A` and position `p` is the sum over the alphabet axis of
`(indicator_s - reference) * multiplier`, where `indicator_s` is the input
that is a fixed symbol-`s` one-hot at every position; and a `ValueError` is
raised exactly when some argument is not a one-element tuple of a tensor
whose shape matches the multipliers'. -/
theorem C6_hypothetical_attributions :
    (∀ (n A L : Nat) (md xd rd : Nat → Nat → Nat → ℚ),
      hypAttr (.tup [.tensor n A L md]) (.tup [.tensor n A L xd])
          (.tup [.tensor n A L rd])
        = .ok ((n, A, L), fun nb s p =>
            if s < A then
              ∑ a in Finset.range A, ((if a = s then 1 else 0) - rd nb a p) * md nb a p
            else 0))
    ∧ (∀ m X r : PyArg, (hypAttr m X r).isOk = true ↔ validArgs m X r = true) := by
  constructor
  · intro n A L md xd rd
    have hfun : projectedOf A md rd = fun nb s p =>
        if s < A then
          ∑ a in Finset.range A, ((if a = s then 1 else 0) - rd nb a p) * md nb a p
        else 0 := by
      funext nb s p
      simp [projectedOf, hypInputChan]
    simp [hypAttr, hfun]
  · intro m X r
    rcases m with lm | _
    · rcases lm with _ | ⟨v, tl⟩
      · simp [hypAttr, validArgs, PyArg.shapeOf, Except.isOk, Except.toBool]
      · rcases tl with _ | ⟨w, tl2⟩
        · rcases v with ⟨n, A, L, md⟩ | _
          · rcases X with lX | _
            · rcases lX with _ | ⟨vX, tlX⟩
              · simp [hypAttr, validArgs, PyArg.shapeOf, Except.isOk, Except.toBool]
              · rcases tlX with _ | ⟨wX, tlX2⟩
                · rcases vX with ⟨n₂, A₂, L₂, xd⟩ | _
                  · by_cases hX : (n₂, A₂, L₂) = (n, A, L)
                    · rcases r with lr | _
                      · rcases lr with _ | ⟨vr, tlr⟩
                        · simp [hypAttr, validArgs, PyArg.shapeOf, Except.isOk,
                            Except.toBool, hX]
                        · rcases tlr with _ | ⟨wr, tlr2⟩
                          · rcases vr with ⟨n₃, A₃, L₃, rd⟩ | _
                            · by_cases hr : (n₃, A₃, L₃) = (n, A, L) <;>
                                simp [hypAttr, validArgs, PyArg.shapeOf,
                                  Except.isOk, Except.toBool, hX, hr]
                            · simp [hypAttr, validArgs, PyArg.shapeOf,
                                Except.isOk, Except.toBool, hX]
                          · rcases vr with ⟨n₃, A₃, L₃, rd⟩ | _ <;>
                              simp [hypAttr, validArgs, PyArg.shapeOf,
                                Except.isOk, Except.toBool, hX]
                      · simp [hypAttr, validArgs, PyArg.shapeOf, Except.isOk,
                          Except.toBool, hX]
                    · rcases r with lr | _
                      · rcases lr with _ | ⟨vr, tlr⟩
                        · simp [hypAttr, validArgs, PyArg.shapeOf, Except.isOk,
                            Except.toBool, hX]
                        · rcases tlr with _ | ⟨wr, tlr2⟩
                          · rcases vr with ⟨n₃, A₃, L₃, rd⟩ | _ <;>
                              simp [hypAttr, validArgs, PyArg.shapeOf,
                                Except.isOk, Except.toBool, hX]
                          · rcases vr with ⟨n₃, A₃, L₃, rd⟩ | _ <;>
                              simp [hypAttr, validArgs, PyArg.shapeOf,
                                Except.isOk, Except.toBool, hX]
                      · simp [hypAttr, validArgs, PyArg.shapeOf, Except.isOk,
                          Except.toBool, hX]
                  · simp [hypAttr, validArgs, PyArg.shapeOf, Except.isOk,
                      Except.toBool]
                · rcases vX with ⟨n₂, A₂, L₂, xd⟩ | _ <;>
                    simp [hypAttr, validArgs, PyArg.shapeOf, Except.isOk,
                      Except.toBool]
            · simp [hypAttr, validArgs, PyArg.shapeOf, Except.isOk, Except.toBool]
          · simp [hypAttr, validArgs, PyArg.shapeOf, Except.isOk, Except.toBool]
        · rcases v with ⟨n, A, L, md⟩ | _ <;>
            simp [hypAttr, validArgs, PyArg.shapeOf, Except.isOk, Except.toBool]
    · simp [hypAttr, validArgs, PyArg.shapeOf, Except.isOk, Except.toBool]

/-! ## The driver loop: drain and batching lemmas, claims C2, C7, C10 -/

theorem drainF_fuel (R : Nat) (fin : Nat → List Qmat → AttrOut) (hR : 1 ≤ R) :
    ∀ (f g : Nat) (attr : List Qmat) (out : List AttrOut) (z : Nat),
      attr.length ≤ f → attr.length ≤ g →
      drainF R fin f attr out z = drainF R fin g attr out z := by
  intro f
  induction f with
  | zero =>
    intro g attr out z hf hg
    have ha : attr = [] := List.length_eq_zero.mp (Nat.le_zero.mp hf)
    subst ha
    cases g with
    | zero => rfl
    | succ g => simp [drainF, show ¬ R ≤ 0 by omega]
  | succ f ih =>
    intro g attr out z hf hg
    by_cases hle : R ≤ attr.length
    · have hg1 : g ≠ 0 := by omega
      obtain ⟨g', rfl⟩ := Nat.exists_eq_succ_of_ne_zero hg1
      simp only [drainF, hle, if_true]
      apply ih
      · rw [List.length_drop]; omega
      · rw [List.length_drop]; omega
    · cases g with
      | zero =>
        have ha : attr = [] := List.length_eq_zero.mp (Nat.le_zero.mp hg)
        subst ha
        simp [drainF, show R ≠ 0 by omega]
      | succ g => simp [drainF, hle]

theorem drainC_small (R : Nat) (fin : Nat → List Qmat → AttrOut)
    (attr : List Qmat) (out : List AttrOut) (z : Nat) (h : attr.length < R) :
    drainC R fin attr out z = (out, attr, z) := by
  unfold drainC
  cases hl : attr.length with
  | zero => rfl
  | succ k => simp [drainF, Nat.not_le.mpr h]

theorem drainC_step (R : Nat) (fin : Nat → List Qmat → AttrOut)
    (attr : List Qmat) (out : List AttrOut) (z : Nat) (hR : 1 ≤ R)
    (h : R ≤ attr.length) :
    drainC R fin attr out z =
      drainC R fin (attr.drop R) (out ++ [fin z (attr.take R)]) (z + 1) := by
  obtain ⟨k, hk⟩ : ∃ k, attr.length = k + 1 := ⟨attr.length - 1, by omega⟩
  unfold drainC
  rw [hk]
  simp only [drainF, h, if_true]
  apply drainF_fuel R fin hR
  · rw [List.length_drop]; omega
  · exact le_refl _

theorem drainF_rem_lt (R : Nat) (fin : Nat → List Qmat → AttrOut) (hR : 1 ≤ R) :
    ∀ (fuel : Nat) (attr : List Qmat) (out : List AttrOut) (z : Nat),
      attr.length ≤ fuel → ((drainF R fin fuel attr out z).2.1).length < R := by
  intro fuel
  induction fuel with
  | zero =>
    intro attr out z h
    have ha : attr = [] := List.length_eq_zero.mp (Nat.le_zero.mp h)
    subst ha
    simpa [drainF] using hR
  | succ fuel ih =>
    intro attr out z h
    by_cases hle : R ≤ attr.length
    · simp only [drainF, hle, if_true]
      apply ih
      rw [List.length_drop]
      omega
    · simp only [drainF, hle, if_false]
      omega

theorem drainC_rem_lt (R : Nat) (fin : Nat → List Qmat → AttrOut)
    (attr : List Qmat) (out : List AttrOut) (z : Nat) (hR : 1 ≤ R) :
    ((drainC R fin attr out z).2.1).length < R :=
  drainF_rem_lt R fin hR attr.length attr out z (le_refl _)

theorem drainC_append (R : Nat) (fin : Nat → List Qmat → AttrOut) (hR : 1 ≤ R) :
    ∀ (n : Nat) (a b : List Qmat) (out : List AttrOut) (z : Nat),
      a.length ≤ n →
      drainC R fin (a ++ b) out z =
        drainC R fin ((drainC R fin a out z).2.1 ++ b)
          (drainC R fin a out z).1 (drainC R fin a out z).2.2 := by
  intro n
  induction n with
  | zero =>
    intro a b out z ha
    have h0 : a = [] := List.length_eq_zero.mp (Nat.le_zero.mp ha)
    subst h0
    rw [drainC_small R fin [] out z (by simpa using hR)]
  | succ n ih =>
    intro a b out z ha
    by_cases hle : R ≤ a.length
    · have hab : R ≤ (a ++ b).length := by rw [List.length_append]; omega
      rw [drainC_step R fin (a ++ b) out z hR hab,
        List.take_append_of_le_length hle, List.drop_append_of_le_length hle,
        drainC_step R fin a out z hR hle]
      have hta : (a.take R).length = R := by
        rw [List.length_take]
        omega
      exact ih (a.drop R) b (out ++ [fin z (a.take R)]) (z + 1)
        (by rw [List.length_drop]; omega)
    · rw [drainC_small R fin a out z (by omega)]
  
theorem drainC_chunk (R : Nat) (fin : Nat → List Qmat → AttrOut) (hR : 1 ≤ R)
    (c rest : List Qmat) (out : List AttrOut) (z : Nat) (hc : c.length = R) :
    drainC R fin (c ++ rest) out z = drainC R fin rest (out ++ [fin z c]) (z + 1) := by
  have h : R ≤ (c ++ rest).length := by rw [List.length_append]; omega
  rw [drainC_step R fin (c ++ rest) out z hR h,
    show (c ++ rest).take R = c by rw [← hc, List.take_left],
    show (c ++ rest).drop R = rest by rw [← hc, List.drop_left]]

theorem loopGo_spec (pf : Nat → Nat → Qmat) (fin : Nat → List Qmat → AttrOut)
    (R bs n : Nat) (hR : 1 ≤ R) :
    ∀ (l : List Nat) (Xi rj : List Nat) (attr : List Qmat)
      (out : List AttrOut) (z : Nat),
      Xi.length = rj.length → attr.length < R → (l = [] → Xi = []) →
      (∀ hne : l ≠ [], l.getLast hne = n - 1) →
      loopGo pf fin R bs n l Xi rj attr out z =
        (drainC R fin
          (attr ++ (((Xi.zip rj).map fun p => pf p.1 p.2)
            ++ l.map (fun i => pf (i / R) (i % R)))) out z).1 := by
  intro l
  induction l with
  | nil =>
    intro Xi rj attr out z hlen hattr hXi _
    have hXe : Xi = [] := hXi rfl
    subst hXe
    simp only [loopGo, List.zip_nil_left, List.map_nil, List.nil_append,
      List.append_nil]
    rw [drainC_small R fin attr out z hattr]
  | cons i rest ih =>
    intro Xi rj attr out z hlen hattr hXi hlast
    have hzip : (Xi ++ [i / R]).zip (rj ++ [i % R])
        = Xi.zip rj ++ [(i / R, i % R)] := by
      rw [List.zip_append hlen]
      rfl
    by_cases hfl : (Xi ++ [i / R]).length = bs ∨ i = n - 1
    · have hlast' : ∀ hne : rest ≠ [], rest.getLast hne = n - 1 := by
        intro hne
        have h1 := hlast (List.cons_ne_nil i rest)
        rwa [List.getLast_cons hne] at h1
      simp only [loopGo, hfl, if_true, hzip, List.map_append]
      rw [ih [] [] _ _ _ rfl (drainC_rem_lt R fin _ out z hR)
        (fun _ => rfl) hlast']
      simp only [List.zip_nil_left, List.map_nil, List.nil_append]
      have hassoc :
          attr ++ (((Xi.zip rj).map fun p => pf p.1 p.2)
            ++ (i :: rest).map (fun j => pf (j / R) (j % R)))
          = (attr ++ (((Xi.zip rj).map fun p => pf p.1 p.2)
              ++ [pf (i / R) (i % R)]))
            ++ rest.map (fun j => pf (j / R) (j % R)) := by
        simp
      rw [hassoc,
        drainC_append R fin hR
          (attr ++ (((Xi.zip rj).map fun p => pf p.1 p.2)
            ++ [pf (i / R) (i % R)])).length _ _ out z (le_refl _)]
      simp
    · have hi : i ≠ n - 1 := by
        intro h
        exact hfl (Or.inr h)
      have hne' : rest ≠ [] := by
        intro h
        subst h
        exact hi (hlast (List.cons_ne_nil i []))
      have hlast' : ∀ hne : rest ≠ [], rest.getLast hne = n - 1 := by
        intro hne
        have h1 := hlast (List.cons_ne_nil i rest)
        rwa [List.getLast_cons hne] at h1
      simp only [loopGo, hfl, if_false]
      rw [ih (Xi ++ [i / R]) (rj ++ [i % R]) attr out z
        (by simp [hlen]) hattr (fun h => absurd h hne') hlast']
      rw [hzip, List.map_append]
      simp

theorem getLast_range (n : Nat) :
    ∀ hne : List.range n ≠ [], (List.range n).getLast hne = n - 1 := by
  intro hne
  have hn : n ≠ 0 := by
    intro h
    subst h
    simp at hne
  rw [List.getLast_eq_iff_getLast?_eq_some hne, List.getLast?_range]
  simp [hn]

theorem dlsLoop_canonical (pf : Nat → Nat → Qmat)
    (fin : Nat → List Qmat → AttrOut) (R bs n : Nat) (hR : 1 ≤ R) :
    dlsLoop pf fin R bs n =
      (drainC R fin ((List.range n).map fun i => pf (i / R) (i % R)) [] 0).1 := by
  unfold dlsLoop
  rw [loopGo_spec pf fin R bs n hR (List.range n) [] [] [] [] 0 rfl
    (by simpa using hR) (fun _ => rfl) (getLast_range n)]
  simp

theorem range_pair_stream (pf : Nat → Nat → Qmat) (R : Nat) :
    ∀ N : Nat, (List.range (N * R)).map (fun i => pf (i / R) (i % R))
      = (List.range N).flatMap (fun e => (List.range R).map (pf e)) := by
  intro N
  induction N with
  | zero => simp
  | succ N ih =>
    by_cases hR0 : R = 0
    · subst hR0
      simp [Nat.mul_zero]
    have h1 : (N + 1) * R = N * R + R := by ring
    rw [h1, List.range_add, List.map_append, ih, List.range_succ,
      List.flatMap_append, List.map_map]
    congr 1
    · simp only [List.flatMap_cons, List.flatMap_nil, List.append_nil]
      apply List.map_congr_left
      intro j hj
      have hjR : j < R := List.mem_range.mp hj
      have hdiv : (N * R + j) / R = N := by
        rw [Nat.mul_comm N R, Nat.mul_add_div (by omega)]
        simp [Nat.div_eq_of_lt hjR]
      have hmod : (N * R + j) % R = j := by
        rw [Nat.mul_comm N R, Nat.mul_add_mod]
        exact Nat.mod_eq_of_lt hjR
      simp [Function.comp, hdiv, hmod]

theorem drainC_chunks (R : Nat) (fin : Nat → List Qmat → AttrOut) (hR : 1 ≤ R)
    (g : Nat → List Qmat) (hg : ∀ e, (g e).length = R) :
    ∀ N : Nat, drainC R fin ((List.range N).flatMap g) [] 0
      = ((List.range N).map (fun e => fin e (g e)), [], N) := by
  intro N
  induction N with
  | zero => simpa using drainC_small R fin [] [] 0 (by simpa using hR)
  | succ N ih =>
    rw [List.range_succ, List.flatMap_append,
      drainC_append R fin hR ((List.range N).flatMap g).length _ _ [] 0
        (le_refl _), ih]
    simp only [List.flatMap_cons, List.flatMap_nil, List.append_nil,
      List.nil_append]
    have hstep := drainC_chunk R fin hR (g N)
      ([] : List Qmat) ((List.range N).map (fun e => fin e (g e))) N (hg N)
    rw [List.append_nil] at hstep
    rw [hstep, drainC_small R fin []
      (((List.range N).map fun e => fin e (g e)) ++ [fin N (g N)]) (N + 1)
      (by simpa using hR)]
    simp

theorem dlsLoop_closed (pf : Nat → Nat → Qmat)
    (fin : Nat → List Qmat → AttrOut) (R bs N : Nat) (hR : 1 ≤ R) :
    dlsLoop pf fin R bs (N * R)
      = (List.range N).map (fun e => fin e ((List.range R).map (pf e))) := by
  rw [dlsLoop_canonical pf fin R bs (N * R) hR, range_pair_stream pf R N,
    drainC_chunks R fin hR (fun e => (List.range R).map (pf e))
      (fun e => by simp) N]

/-- **C2.** For a deterministic model, fixed input of `N` examples, fixed
per-pair references (precomputed tensor, or generator with a fixed integer
seed), and `R` references per example, `deep_lift_shap` returns identical
output for every choice of `batch_size`; moreover the output equals the
canonical per-example form — one finalized attribution per example, in
original example order, each built from exactly its `R` reference results —
so no example is finalized before all `R` of its references have arrived. -/
theorem C2_batch_invariance (engine : Qmat → Qmat → Qmat) (X : Nat → Qmat)
    (rs : RefSource) (N R bs₁ bs₂ : Nat) (raw hyp : Bool) (hR : 1 ≤ R) :
    deep_lift_shap engine X rs N R bs₁ raw hyp
        = deep_lift_shap engine X rs N R bs₂ raw hyp
    ∧ deep_lift_shap engine X rs N R bs₁ raw hyp
        = torchStack ((List.range N).map fun z =>
            finalizeChunk X raw hyp z
              ((List.range R).map (pairOutput engine X rs raw z))) := by
  unfold deep_lift_shap
  rw [dlsLoop_closed _ _ R bs₁ N hR, dlsLoop_closed _ _ R bs₂ N hR]
  exact ⟨rfl, rfl⟩

/-- Witness for C2: a concrete 2-example, 2-reference instance, compared at
batch sizes 1 and 3. -/
theorem C2_witness :
    (deep_lift_shap (fun x r => ewMul x r) (fun i => [[(i : ℚ) + 1]])
        (.tensor fun _ j => [[(j : ℚ)]]) 2 2 1 false false
      = deep_lift_shap (fun x r => ewMul x r) (fun i => [[(i : ℚ) + 1]])
        (.tensor fun _ j => [[(j : ℚ)]]) 2 2 3 false false)
    ∧ deep_lift_shap (fun x r => ewMul x r) (fun i => [[(i : ℚ) + 1]])
        (.tensor fun _ j => [[(j : ℚ)]]) 2 2 1 false false
      = torchStack ((List.range 2).map fun z =>
          finalizeChunk (fun i => [[(i : ℚ) + 1]]) false false z
            ((List.range 2).map (pairOutput (fun x r => ewMul x r)
              (fun i => [[(i : ℚ) + 1]]) (.tensor fun _ j => [[(j : ℚ)]])
              false z))) :=
  C2_batch_invariance (fun x r => ewMul x r) (fun i => [[(i : ℚ) + 1]])
    (.tensor fun _ j => [[(j : ℚ)]]) 2 2 1 3 false false (by decide)

/-- **C7.** For every model, input, references, and seed, the attributions
returned by `deep_lift_shap` with `hypothetical=False` equal, example by
example, the `hypothetical=True` attributions multiplied elementwise by the
one-hot `X[z]` — so observed-symbol values match and non-observed slots are
zeroed wherever `X[z]` is zero. -/
theorem C7_hypothetical_consistency (engine : Qmat → Qmat → Qmat)
    (X : Nat → Qmat) (rs : RefSource) (N R bs : Nat) (hR : 1 ≤ R) :
    deep_lift_shap engine X rs N R bs false false =
      Except.map (fun out => List.zipWith (fun z t => scaleByX (X z) t)
        (List.range N) out)
        (deep_lift_shap engine X rs N R bs false true) := by
  unfold deep_lift_shap
  rw [dlsLoop_closed _ _ R bs N hR, dlsLoop_closed _ _ R bs N hR]
  cases N with
  | zero => simp [torchStack, Except.map]
  | succ n =>
    have hne : ∀ (f : Nat → AttrOut), ((List.range (n + 1)).map f).isEmpty = false := by
      intro f
      simp [List.range_succ]
    simp only [torchStack, hne, Bool.false_eq_true, if_false, Except.map]
    congr 1
    rw [List.zipWith_map_right, List.zipWith_same]
    apply List.map_congr_left
    intro z _
    simp [finalizeChunk, scaleByX]

/-- Witness for C7: a concrete 2-example, 2-reference instance in the
seeded-generator mode. -/
theorem C7_witness :
    deep_lift_shap (fun x r => ewMul x r) (fun i => [[(i : ℚ) + 1]])
        (.gen (fun x s => scaleQ (s : ℚ) x) 5) 2 2 3 false false =
      Except.map (fun out => List.zipWith
        (fun z t => scaleByX ((fun i => [[(i : ℚ) + 1]]) z) t)
        (List.range 2) out)
        (deep_lift_shap (fun x r => ewMul x r) (fun i => [[(i : ℚ) + 1]])
          (.gen (fun x s => scaleQ (s : ℚ) x) 5) 2 2 3 false true) :=
  C7_hypothetical_consistency (fun x r => ewMul x r) (fun i => [[(i : ℚ) + 1]])
    (.gen (fun x s => scaleQ (s : ℚ) x) 5) 2 2 3 (by decide)

/-- **C10.** For every model and an input with zero examples,
`deep_lift_shap` raises (`torch.stack` of the empty attribution list)
rather than returning an empty tensor: the pair loop over
`n = 0 * n_shuffles` pairs never executes and leaves the list empty. -/
theorem C10_empty_input (engine : Qmat → Qmat → Qmat) (X : Nat → Qmat)
    (rs : RefSource) (R bs : Nat) (raw hyp : Bool) :
    deep_lift_shap engine X rs 0 R bs raw hyp
        = .error "stack expects a non-empty TensorList"
    ∧ dlsLoop (pairOutput engine X rs raw) (finalizeChunk X raw hyp) R bs (0 * R)
        = [] := by
  constructor
  · unfold deep_lift_shap dlsLoop
    simp [loopGo, torchStack]
  · unfold dlsLoop
    simp [loopGo]

/-! ## Hook-removal lemmas and claim C9 -/

theorem modList_append (ctx : List LayerMod) (x : LayerMod)
    (l : List LayerMod) (f : LayerMod → LayerMod) :
    modList (ctx ++ x :: l) ctx.length f = ctx ++ f x :: l := by
  induction ctx with
  | nil => rfl
  | cons c ctx ih => simp [modList, ih]

theorem erase_appended {a : Nat} {l : List Nat} (h : a ∉ l) :
    (l ++ [a]).erase a = l := by
  rw [List.erase_append_right _ h]
  simp

theorem idsBelow_not_mem_fwd {n : Nat} {m : LayerMod}
    (h : idsBelow n m = true) : n ∉ m.fwdIds := by
  intro hmem
  have := List.all_eq_true.mp h n (by simp [hmem])
  simp at this

theorem idsBelow_not_mem_pre {n k : Nat} {m : LayerMod}
    (h : idsBelow n m = true) : n + k ∉ m.preIds := by
  intro hmem
  have := List.all_eq_true.mp h (n + k) (by simp [hmem])
  simp at this

theorem idsBelow_not_mem_bwd {n k : Nat} {m : LayerMod}
    (h : idsBelow n m = true) : n + k ∉ m.bwdIds := by
  intro hmem
  have := List.all_eq_true.mp h (n + k) (by simp [hmem])
  simp at this

theorem regLayer_roundtrip (m : LayerMod) (nid : Nat)
    (hfresh : idsBelow nid m = true) (ctx : List LayerMod)
    (rest' : List LayerMod) :
    ((regLayer m ctx.length nid).2.1).foldl remHandle
        (ctx ++ (regLayer m ctx.length nid).1 :: rest') = ctx ++ m :: rest' := by
  unfold regLayer
  by_cases hb : m.bwdIds.length > 0
  · simp [hb]
  · by_cases hs : m.supported
    · simp only [hb, hs, not_true, if_false, if_neg, reduceIte]
      simp only [List.foldl_cons, List.foldl_nil, remHandle]
      rw [modList_append, modList_append, modList_append]
      have h1 : removeHookId .fwdHook nid (addHookId .bwdHook (nid + 2)
          (addHookId .preHook (nid + 1) (addHookId .fwdHook nid m)))
          = addHookId .bwdHook (nid + 2) (addHookId .preHook (nid + 1) m) := by
        simp [removeHookId, addHookId,
          erase_appended (idsBelow_not_mem_fwd hfresh)]
      have h2 : removeHookId .preHook (nid + 1)
          (addHookId .bwdHook (nid + 2) (addHookId .preHook (nid + 1) m))
          = addHookId .bwdHook (nid + 2) m := by
        simp [removeHookId, addHookId,
          erase_appended (idsBelow_not_mem_pre (k := 1) hfresh)]
      have h3 : removeHookId .bwdHook (nid + 2) (addHookId .bwdHook (nid + 2) m)
          = m := by
        simp [removeHookId, addHookId,
          erase_appended (idsBelow_not_mem_bwd (k := 2) hfresh)]
      rw [h1, h2, h3]
    · simp [hb, hs]

theorem idsBelow_mono {n n' : Nat} (h : n ≤ n') (m : LayerMod)
    (hm : idsBelow n m = true) : idsBelow n' m = true := by
  unfold idsBelow at *
  rw [List.all_eq_true] at *
  intro x hx
  have := hm x hx
  simp at this ⊢
  omega

theorem regLayer_nid_le (m : LayerMod) (idx nid : Nat) :
    nid ≤ (regLayer m idx nid).2.2 := by
  unfold regLayer
  by_cases hb : m.bwdIds.length > 0
  · simp [hb]
  · by_cases hs : m.supported <;> simp [hb, hs]

theorem regAll_roundtrip :
    ∀ (ms : List LayerMod) (ctx : List LayerMod) (nid : Nat),
      ms.all (idsBelow nid) = true →
      ((regAll ms ctx.length nid).2.1).foldl remHandle
          (ctx ++ (regAll ms ctx.length nid).1) = ctx ++ ms := by
  intro ms
  induction ms with
  | nil =>
    intro ctx nid _
    simp [regAll]
  | cons m rest ih =>
    intro ctx nid hfresh
    have hfresh' : idsBelow nid m = true ∧ rest.all (idsBelow nid) = true := by
      simpa [List.all_cons] using hfresh
    obtain ⟨hm, hrest⟩ := hfresh'
    simp only [regAll, List.foldl_append]
    rw [regLayer_roundtrip m nid hm ctx]
    have hctx : (ctx ++ [m]).length = ctx.length + 1 := by simp
    have hrest' : rest.all (idsBelow (regLayer m ctx.length nid).2.2) = true := by
      rw [List.all_eq_true] at hrest ⊢
      intro x hx
      exact idsBelow_mono (regLayer_nid_le m ctx.length nid) x (hrest x hx)
    have := ih (ctx ++ [m]) (regLayer m ctx.length nid).2.2 hrest'
    rw [hctx] at this
    simpa using this

/-- **C9.** On every exit path of `DeepLiftShap.attribute` — normal return
of the gradients or an exception raised during the forward/backward pass —
every interceptor hook installed during the call is removed before the call
completes: the model's modules carry exactly their original hook sets
afterwards, and the outcome is passed through unchanged. -/
theorem C9_hooks_removed (ms : List LayerMod) (nid : Nat)
    (outcome : Except String (List Qmat))
    (hfresh : ms.all (idsBelow nid) = true) :
    attributeHooks ms nid outcome = (outcome, ms) := by
  have h1 := regAll_roundtrip ms [] nid hfresh
  simp only [List.length_nil, List.nil_append] at h1
  show (outcome, ((regAll ms 0 nid).2.1).foldl remHandle (regAll ms 0 nid).1)
      = (outcome, ms)
  rw [h1]

/-- Witness for C9: three modules (a supported one, an unsupported one with
a pre-existing forward hook, and a supported one already carrying a backward
hook), fresh id counter 10, and a raised exception as the pass outcome. -/
theorem C9_witness :
    attributeHooks
        [⟨true, [], [], []⟩, ⟨false, [3], [], []⟩, ⟨true, [], [], [7]⟩] 10
        (.error "RuntimeError") =
      (.error "RuntimeError",
        [⟨true, [], [], []⟩, ⟨false, [3], [], []⟩, ⟨true, [], [], [7]⟩]) :=
  C9_hooks_removed
    [⟨true, [], [], []⟩, ⟨false, [3], [], []⟩, ⟨true, [], [], [7]⟩] 10
    (.error "RuntimeError") (by decide)

end DLS
